import Mathlib

/-!
Verification of Waft.js (`src/waft.js`) against its natural-language
specification.

The development is a shallow embedding of the single `WaftJs` class:
- the document is a flat list of elements in document order; an element
  carries its attributes, the DOM fields the directives mutate
  (`textContent`, `innerHTML`, `value`, the inline `display` style), the
  `mOriginalDisplay` expando used by `w-show`, and the id of its
  containing form (if any);
- snippets attached to attributes are JavaScript source strings; their
  meaning is supplied by an oracle `Prog : String → Code` mapping each
  source text to a term of a small statement language `Code` that covers
  the behaviours the engine can observe (returning a value, falling
  through, throwing, calling `wUpdate`);
- the engine (`evaluateString`, `updateElement`, `register`, event
  dispatch) is translated function by function from the source, threading
  an explicit state.  Two ghost fields (`trace`, `runs`) record the order
  of directive applications and snippet evaluations; they feed no
  behaviour.
-/

namespace Waft

/-- JavaScript values, restricted to the shapes the engine can observe. -/
inductive Value where
  | jsUndefined : Value
  | vNull : Value
  | bool : Bool → Value
  | num : Int → Value
  | str : String → Value
  | elem : Nat → Value
deriving DecidableEq, Repr

/-- JavaScript truthiness. -/
def truthy : Value → Bool
  | .jsUndefined => false
  | .vNull => false
  | .bool b => b
  | .num n => n != 0
  | .str s => s != ""
  | .elem _ => true

/-- DOMString coercion as performed by the `textContent`, `innerHTML` and
`value` setters (all `[LegacyNullToEmptyString]`, so `null` becomes `""`). -/
def jsToString : Value → String
  | .jsUndefined => "jsUndefinedined"
  | .vNull => ""
  | .bool b => if b then "true" else "false"
  | .num n => toString n
  | .str s => s
  | .elem _ => "[object Element]"

/-- An element of the host document.  `styleDisplay` models the inline
`style.display` value, with `""` meaning "not set" (CSSOM reads an absent
inline property as the empty string, and `removeProperty` resets it to
`""`).  `mOriginalDisplay` is the expando property the `w-show` handler
stores on the element; `none` models the JavaScript `jsUndefinedined` of a
never-written expando. -/
structure Elem where
  id : Nat
  attrs : List (String × String)
  textContent : String := ""
  innerHTML : String := ""
  value : String := ""
  styleDisplay : String := ""
  mOriginalDisplay : Option String := none
  form : Option Nat := none
deriving DecidableEq, Repr

/-- The document: its elements in document (tree traversal) order. -/
structure Doc where
  elems : List Elem
deriving DecidableEq, Repr

/-- `elm.attributes[name]` — named attribute lookup. -/
def getAttr (e : Elem) (name : String) : Option String :=
  (e.attrs.find? (fun p => p.1 = name)).map (fun p => p.2)

/-- Fetch the element with a given id (element identity). -/
def getElem (doc : Doc) (id : Nat) : Option Elem :=
  doc.elems.find? (fun e => e.id = id)

/-- Replace the element with the given id, in place. -/
def updateDoc (doc : Doc) (id : Nat) (f : Elem → Elem) : Doc :=
  ⟨doc.elems.map (fun e => if e.id = id then f e else e)⟩

/-- JavaScript object property write `m[k] = v`: overwrite in place if the
key exists, otherwise append (property insertion order). -/
def objSet (m : List (String × Nat)) (k : String) (v : Nat) : List (String × Nat) :=
  if m.any (fun p => p.1 = k) then m.map (fun p => if p.1 = k then (k, v) else p)
  else m ++ [(k, v)]

/-- JavaScript object property read `m[k]`. -/
def objGet (m : List (String × Nat)) (k : String) : Option Nat :=
  (m.find? (fun p => p.1 = k)).map (fun p => p.2)

/-- `collectRefs()`: scan the whole document for `[w-ref]` elements and
build the `{ $name: element }` object.  Later elements overwrite earlier
duplicates because `result[`$name`] = elm` is a plain property write. -/
def collectRefs (doc : Doc) : List (String × Nat) :=
  doc.elems.foldl
    (fun result elm =>
      match getAttr elm "w-ref" with
      | some refName => objSet result ("$" ++ refName) elm.id
      | none => result)
    []

/-- The element's contributed registry key, if it carries `w-ref`. -/
def refKey (e : Elem) : Option String :=
  (getAttr e "w-ref").map (fun n => "$" ++ n)

/-- The id of the last element in document order carrying `w-ref="n"`. -/
def lastRefId (doc : Doc) (n : String) : Option Nat :=
  ((doc.elems.filter (fun e => getAttr e "w-ref" = some n)).map (fun e => e.id)).getLast?

/-! ## The directive table

`AVAILABLE_DIRECTIVES` from the source, as a list of
(attribute name, effect function) pairs; the list order is the string-key
insertion order of the object literal, which is the order
`Object.entries` yields in `updateElement`. -/

/-- The `w-show` effect function, including its `mOriginalDisplay` memo.
`if (elm.mOriginalDisplay)` is a JavaScript truthiness test: both the
absent expando (`none`) and a cached empty string fail it. -/
def showEffect (elm : Elem) (evaluationResult : Value) : Elem :=
  if truthy evaluationResult then
    match elm.mOriginalDisplay with
    | some d => if d != "" then { elm with styleDisplay := d }
                else { elm with styleDisplay := "" }
    | none => { elm with styleDisplay := "" }
  else
    let elm1 := if elm.styleDisplay != "none"
                then { elm with mOriginalDisplay := some elm.styleDisplay }
                else elm
    { elm1 with styleDisplay := "none" }

def AVAILABLE_DIRECTIVES : List (String × (Elem → Value → Elem)) :=
  [ ("w-show", showEffect),
    ("w-value", fun elm evaluationResult => { elm with value := jsToString evaluationResult }),
    ("w-update", fun elm _ => elm),
    ("w-text", fun elm evaluationResult => { elm with textContent := jsToString evaluationResult }),
    ("w-html", fun elm evaluationResult => { elm with innerHTML := jsToString evaluationResult }) ]

/-- The directive attribute names in declaration order. -/
def DIRECTIVE_ORDER : List String := AVAILABLE_DIRECTIVES.map (fun p => p.1)

def AVAILABLE_EVENT_NAMES : List String :=
  ["blur", "click", "change", "keyup", "keydown", "submit"]

/-! ## Snippets

Attribute values are JavaScript source strings.  Their semantics is given
by an oracle `Prog` mapping each source text to a `Code` term; `Code`
covers the observable behaviours of a snippet run by
`Function('context', `with (context) { code }`)`: evaluate and return a
value, fall through without `return` (the call then yields `jsUndefinedined`),
throw, or invoke the injected `wUpdate` capability. -/

/-- A runtime error escaping a snippet or the engine itself. -/
inductive Err where
  | thrown : String → Err
  | nullFormAccess : Err
  | nullDeref : Err
  | outOfFuel : Err
deriving DecidableEq, Repr

/-- A browser event. -/
structure Event where
  name : String
  target : Nat
  submitter : Option Nat := none
deriving DecidableEq, Repr

/-- A registered event listener: `addEventListener(eventName, …)` on
element `target`.  `sourceElm` and `code` are the values captured by the
handler closure; `submitGuard` records whether the closure is the
submit-handler shape `if (ev.submitter == elm) { … }`. -/
structure Listener where
  target : Nat
  eventName : String
  sourceElm : Nat
  code : String
  submitGuard : Bool
deriving DecidableEq, Repr

/-- Engine state: the document, the attached listeners, the console error
log (`console.error` of the offending snippet text), and two ghost traces
used only to state ordering properties: `trace` records each directive
evaluation `(element id, directive name)`, `runs` records each snippet
text handed to `evaluateString`. -/
structure St where
  doc : Doc
  listeners : List Listener := []
  log : List String := []
  trace : List (Nat × String) := []
  runs : List String := []
deriving DecidableEq, Repr

/-- The evaluation context injected via `with (context) { … }`: all
current references (name-prefixed) plus `$ev`; the `wUpdate` capability
is interpreted directly by `runCode`.  `selfId` is the element the
compiled function is `.call`ed on. -/
structure Ctx where
  refs : List (String × Nat)
  selfId : Nat
  ev : Option Event
deriving DecidableEq, Repr

/-- Expressions of the snippet language. -/
inductive Expr where
  | lit : Value → Expr
  | add : Expr → Expr → Expr
  | refIdx : String → Expr
deriving DecidableEq, Repr

/-- Statements of the snippet language. -/
inductive Code where
  | fallthrough : Code
  | ret : Expr → Code
  | throwE : String → Code
  | updateCall : List Expr → Code
deriving DecidableEq, Repr

/-- The semantics oracle: what each snippet source string means. -/
abbrev Prog := String → Code

/-- JavaScript `+` on the value shapes we model: numeric addition on two
numbers, string concatenation otherwise. -/
def jsAdd (a b : Value) : Value :=
  match a, b with
  | .num x, .num y => .num (x + y)
  | _, _ => .str (jsToString a ++ jsToString b)

/-- Expression evaluation.  A reference name absent from the context reads
as `jsUndefinedined` (an approximation of the host ReferenceError; no claim
depends on the difference). -/
def evalExpr (ctx : Ctx) : Expr → Value
  | .lit v => v
  | .add a b => jsAdd (evalExpr ctx a) (evalExpr ctx b)
  | .refIdx n =>
    match objGet ctx.refs n with
    | some id => .elem id
    | none => .jsUndefined

/-- `{ refs…, $ev }` as built in `evaluateString`. -/
def mkCtx (st : St) (selfId : Nat) (ev : Option Event) : Ctx :=
  { refs := collectRefs st.doc, selfId := selfId, ev := ev }

/-- Ghost: record a snippet evaluation. -/
def noteRun (st : St) (code : String) : St :=
  { st with runs := st.runs ++ [code] }

/-- Ghost: record a directive evaluation. -/
def noteDir (st : St) (id : Nat) (dname : String) : St :=
  { st with trace := st.trace ++ [(id, dname)] }

/-- `console.error("error when running this code:\n", code)`. -/
def noteLog (st : St) (code : String) : St :=
  { st with log := st.log ++ [code] }

/-- Apply one directive's effect function to the element `id`. -/
def applyEffect (h : Elem → Value → Elem) (v : Value) (id : Nat) (st : St) : St :=
  { st with doc := updateDoc st.doc id (fun e => h e v) }

/-- `evaluateString(code, contextThis, originalEvent)` given the snippet
runner for the current fuel level: compile the snippet, build the context
(fresh `collectRefs` on the live document), call it; on a throw,
`console.error` the snippet source and re-throw the original error. -/
def evalStrWith (prog : Prog) (rc : Code → Ctx → St → (Except Err (Option Value)) × St)
    (code : String) (contextThis : Nat) (originalEvent : Option Event) (st : St) :
    (Except Err Value) × St :=
  let ctx := mkCtx st contextThis originalEvent
  match rc (prog code) ctx (noteRun st code) with
  | (.ok r, st1) => (.ok (r.getD Value.jsUndefined), st1)
  | (.error e, st1) => (.error e, noteLog st1 code)

/-- The `Object.entries(this.AVAILABLE_DIRECTIVES)` loop of
`updateElement`, one table entry at a time, given the evaluator for the
current fuel level. -/
def updateDirsWith (evalStr : String → Nat → St → (Except Err Value) × St) :
    List (String × (Elem → Value → Elem)) → Nat → St → (Except Err Unit) × St
  | [], _, st => (.ok (), st)
  | (directiveName, directiveHandler) :: rest, targetId, st =>
    match getElem st.doc targetId with
    | none => (.error .nullDeref, st)
    | some targetElm =>
      match getAttr targetElm directiveName with
      | none => updateDirsWith evalStr rest targetId st
      | some code =>
        match evalStr code targetId (noteDir st targetId directiveName) with
        | (.ok evaluationResult, st1) =>
          updateDirsWith evalStr rest targetId
            (applyEffect directiveHandler evaluationResult targetId st1)
        | (.error e, st1) => (.error e, st1)

/-- The `for (const targetElm of targetElms)` loop of `updateElements`,
on the evaluated `wUpdate` arguments: a non-element argument fails when
`updateElement` dereferences its `attributes`. -/
def updateValuesWith (updElem : Nat → St → (Except Err Unit) × St) :
    List Value → St → (Except Err Unit) × St
  | [], st => (.ok (), st)
  | v :: rest, st =>
    match v with
    | .elem id =>
      match updElem id st with
      | (.ok _, st1) => updateValuesWith updElem rest st1
      | (.error e, st1) => (.error e, st1)
    | _ => (.error .nullDeref, st)

/-- Semantics of a compiled snippet body.  `updateCall` is the injected
`wUpdate(…)` capability, which re-enters the engine
(`updateElements` → `updateElement` → `evaluateString`); the fuel bounds
that re-entry, every other construct is fuel-free.  A `wUpdate` statement
falls through, so its outcome value is `none`. -/
def runCode (prog : Prog) : Nat → Code → Ctx → St → (Except Err (Option Value)) × St
  | _, .fallthrough, _, st => (.ok none, st)
  | _, .ret e, ctx, st => (.ok (some (evalExpr ctx e)), st)
  | _, .throwE msg, _, st => (.error (.thrown msg), st)
  | 0, .updateCall _, _, st => (.error .outOfFuel, st)
  | f + 1, .updateCall args, ctx, st =>
    match
      updateValuesWith
        (fun targetId st1 =>
          updateDirsWith
            (fun code self st2 => evalStrWith prog (runCode prog f) code self none st2)
            AVAILABLE_DIRECTIVES targetId st1)
        (args.map (evalExpr ctx)) st with
    | (.ok _, st1) => (.ok none, st1)
    | (.error e, st1) => (.error e, st1)

/-- `evaluateString(code, contextThis, originalEvent)`. -/
def evaluateString (prog : Prog) (fuel : Nat) : String → Nat → Option Event → St →
    (Except Err Value) × St :=
  evalStrWith prog (runCode prog fuel)

/-- The directive loop of `updateElement` at a given fuel level. -/
def updateDirs (prog : Prog) (fuel : Nat) :
    List (String × (Elem → Value → Elem)) → Nat → St → (Except Err Unit) × St :=
  updateDirsWith (fun code self st => evaluateString prog fuel code self none st)

/-- `updateElement(targetElm)`. -/
def updateElement (prog : Prog) (fuel : Nat) (targetId : Nat) (st : St) :
    (Except Err Unit) × St :=
  updateDirs prog fuel AVAILABLE_DIRECTIVES targetId st

/-- `updateElements(targetElms)` on already-evaluated argument values. -/
def updateValues (prog : Prog) (fuel : Nat) : List Value → St → (Except Err Unit) × St :=
  updateValuesWith (updateElement prog fuel)

/-- `runCode` re-enters the engine through `updateValues` at one less
fuel. -/
theorem runCode_updateCall (prog : Prog) (f : Nat) (args : List Expr) (ctx : Ctx) (st : St) :
    runCode prog (f + 1) (.updateCall args) ctx st =
      match updateValues prog f (args.map (evalExpr ctx)) st with
      | (.ok _, st1) => (.ok none, st1)
      | (.error e, st1) => (.error e, st1) := rfl

/-- `updateElements(targetElms)` on a list of elements (as `wUpdate`
spreads them). -/
def updateElements (prog : Prog) (fuel : Nat) (ids : List Nat) (st : St) :
    (Except Err Unit) × St :=
  updateValues prog fuel (ids.map (fun id => Value.elem id)) st

/-- The `get refs()` accessor: recomputed from the live document on every
read, never cached. -/
def refs (st : St) : List (String × Nat) :=
  collectRefs st.doc

/-! ## Event binder -/

/-- The `for (const eventName of this.AVAILABLE_EVENT_NAMES)` loop of
`registerEventHandler(elm)`.  For `submit`, `elm.form.addEventListener`
dereferences the containing-form property: a `null` form throws before
any submit listener is attached; otherwise the listener goes on the form
with the `ev.submitter == elm` guard.  Every other event attaches
directly to the element. -/
def regEvents (elm : Elem) : List String → St → (Except Err Unit) × St
  | [], st => (.ok (), st)
  | eventName :: rest, st =>
    match getAttr elm ("w-on:" ++ eventName) with
    | none => regEvents elm rest st
    | some code =>
      if eventName = "submit" then
        match elm.form with
        | none => (.error .nullFormAccess, st)
        | some formId =>
          regEvents elm rest
            { st with listeners := st.listeners ++
                [{ target := formId, eventName := "submit", sourceElm := elm.id,
                   code := code, submitGuard := true }] }
      else
        regEvents elm rest
          { st with listeners := st.listeners ++
              [{ target := elm.id, eventName := eventName, sourceElm := elm.id,
                 code := code, submitGuard := false }] }

/-- `registerEventHandler(elm)`. -/
def registerEventHandler (id : Nat) (st : St) : (Except Err Unit) × St :=
  match getElem st.doc id with
  | none => (.ok (), st)
  | some elm => regEvents elm AVAILABLE_EVENT_NAMES st

/-! ## Scanner / lifecycle -/

/-- Whether the element matches the scan selector list (any recognized
event attribute or directive attribute). -/
def eligible (e : Elem) : Bool :=
  AVAILABLE_EVENT_NAMES.any (fun k => (getAttr e ("w-on:" ++ k)).isSome) ||
  DIRECTIVE_ORDER.any (fun k => (getAttr e k).isSome)

/-- `querySelectorAll` on the whole document: matching elements in
document order, snapshotted before the loop. -/
def scanElements (doc : Doc) : List Nat :=
  (doc.elems.filter eligible).map (fun e => e.id)

/-- The `for (const elm of elements)` loop of `register`. -/
def registerLoop (prog : Prog) (fuel : Nat) : List Nat → St → (Except Err Unit) × St
  | [], st => (.ok (), st)
  | id :: rest, st =>
    match registerEventHandler id st with
    | (.error e, st1) => (.error e, st1)
    | (.ok _, st1) =>
      match updateElement prog fuel id st1 with
      | (.error e, st2) => (.error e, st2)
      | (.ok _, st2) => registerLoop prog fuel rest st2

/-- `register(document)`: scan the whole document, then bind events and
apply directives once per found element. -/
def register (prog : Prog) (fuel : Nat) (st : St) : (Except Err Unit) × St :=
  registerLoop prog fuel (scanElements st.doc) st

/-! ## Event dispatch (host behaviour)

DOM `dispatchEvent` runs the listeners attached to the event's target in
registration order; an exception thrown by one listener is reported to
the error console and does not cancel the remaining listeners. -/

/-- `handleEvent(eventName, targetElm, code, originalEvent)`. -/
def handleEvent (prog : Prog) (fuel : Nat) (code : String) (targetElm : Nat)
    (originalEvent : Event) (st : St) : (Except Err Value) × St :=
  evaluateString prog fuel code targetElm (some originalEvent) st

/-- Run one listener's closure: the submit-guarded shape first checks
`ev.submitter == elm`. -/
def runListener (prog : Prog) (fuel : Nat) (l : Listener) (ev : Event) (st : St) : St :=
  if l.submitGuard then
    if ev.submitter = some l.sourceElm then (handleEvent prog fuel l.code l.sourceElm ev st).2
    else st
  else (handleEvent prog fuel l.code l.sourceElm ev st).2

def dispatchList (prog : Prog) (fuel : Nat) : List Listener → Event → St → St
  | [], _, st => st
  | l :: rest, ev, st =>
    if l.target = ev.target ∧ l.eventName = ev.name then
      dispatchList prog fuel rest ev (runListener prog fuel l ev st)
    else dispatchList prog fuel rest ev st

/-- Dispatch an event on its target against the currently attached
listeners. -/
def dispatchEvent (prog : Prog) (fuel : Nat) (ev : Event) (st : St) : St :=
  dispatchList prog fuel st.listeners ev st

/-- External page code setting an element's text (used to observe that a
later update pass really re-runs a directive). -/
def extSetText (st : St) (id : Nat) (s : String) : St :=
  { st with doc := updateDoc st.doc id (fun e => { e with textContent := s }) }

/-! ## Reference registry lemmas -/

/-- First-of on options, for stating the fold invariant of `collectRefs`. -/
def optOr (a b : Option Nat) : Option Nat :=
  match a with
  | some x => some x
  | none => b

theorem optOr_none (b : Option Nat) : optOr none b = b := rfl

theorem optOr_some (x : Nat) (b : Option Nat) : optOr (some x) b = some x := rfl

theorem objGet_cons (p : String × Nat) (m : List (String × Nat)) (k : String) :
    objGet (p :: m) k = if p.1 = k then some p.2 else objGet m k := by
  by_cases hp : p.1 = k
  · rw [objGet, List.find?_cons_of_pos _ (by simp [hp]), if_pos hp]
    rfl
  · rw [objGet, List.find?_cons_of_neg _ (by simp [hp]), if_neg hp]
    rfl

theorem objGet_map_self (m : List (String × Nat)) (k : String) (v : Nat)
    (h : m.any (fun p => p.1 = k)) :
    objGet (m.map (fun p => if p.1 = k then (k, v) else p)) k = some v := by
  induction m with
  | nil => simp at h
  | cons p m ih =>
    simp only [List.map_cons]
    by_cases hp : p.1 = k
    · simp [hp, objGet_cons]
    · simp only [List.any_cons, Bool.or_eq_true, decide_eq_true_eq, hp, false_or] at h
      rw [if_neg hp, objGet_cons, if_neg hp]
      exact ih h

theorem objGet_map_ne (m : List (String × Nat)) (k k' : String) (v : Nat)
    (h : k' ≠ k) :
    objGet (m.map (fun p => if p.1 = k then (k, v) else p)) k' = objGet m k' := by
  induction m with
  | nil => rfl
  | cons p m ih =>
    simp only [List.map_cons]
    by_cases hp : p.1 = k
    · have hp' : ¬ ((k : String) = k') := fun hk => h hk.symm
      rw [if_pos hp, objGet_cons, objGet_cons]
      have hpk' : ¬ (p.1 = k') := by rw [hp]; exact hp'
      rw [if_neg hp', if_neg hpk']
      exact ih
    · rw [if_neg hp, objGet_cons, objGet_cons]
      by_cases hq : p.1 = k'
      · rw [if_pos hq, if_pos hq]
      · rw [if_neg hq, if_neg hq]
        exact ih

theorem objGet_append_one (m : List (String × Nat)) (k k' : String) (v : Nat) :
    objGet (m ++ [(k, v)]) k' =
      match objGet m k' with
      | some x => some x
      | none => if k' = k then some v else none := by
  induction m with
  | nil =>
    by_cases hk : k' = k
    · simp [objGet_cons, hk, objGet]
    · have : ¬ ((k : String) = k') := fun h => hk h.symm
      simp [objGet_cons, hk, this, objGet]
  | cons p m ih =>
    rw [List.cons_append, objGet_cons, objGet_cons]
    by_cases hq : p.1 = k'
    · rw [if_pos hq, if_pos hq]
    · rw [if_neg hq, if_neg hq]
      exact ih

theorem objGet_objSet_self (m : List (String × Nat)) (k : String) (v : Nat) :
    objGet (objSet m k v) k = some v := by
  unfold objSet
  by_cases h : (m.any fun p => decide (p.1 = k)) = true
  · rw [if_pos h]
    exact objGet_map_self m k v h
  · rw [if_neg h]
    rw [objGet_append_one]
    have hnone : objGet m k = none := by
      induction m with
      | nil => rfl
      | cons p m ih =>
        simp only [List.any_cons, Bool.or_eq_true, decide_eq_true_eq, not_or] at h
        rw [objGet_cons, if_neg h.1]
        exact ih (by simpa using h.2)
    simp [hnone]

theorem objGet_objSet_ne (m : List (String × Nat)) (k k' : String) (v : Nat)
    (h : k' ≠ k) : objGet (objSet m k v) k' = objGet m k' := by
  unfold objSet
  by_cases hany : (m.any fun p => decide (p.1 = k)) = true
  · rw [if_pos hany]
    exact objGet_map_ne m k k' v h
  · rw [if_neg hany]
    rw [objGet_append_one]
    rcases hg : objGet m k' with _ | x <;> simp [h, hg]

theorem getLast?_cons_optOr (a : Elem) (l : List Elem) :
    ((a :: l).map (fun e => e.id)).getLast? =
      optOr ((l.map (fun e => e.id)).getLast?) (some a.id) := by
  cases l with
  | nil => simp [optOr]
  | cons b t =>
    simp only [List.map_cons, List.getLast?_cons_cons]
    have hs : ((b.id :: t.map (fun e => e.id)).getLast?).isSome := by
      rw [List.getLast?_isSome]
      simp
    obtain ⟨x, hx⟩ := Option.isSome_iff_exists.mp hs
    rw [hx, optOr_some]

/-- The fold invariant of `collectRefs`: a key reads as the last
contribution in the scanned list, else as whatever the accumulator held. -/
theorem collectRefs_fold (k : String) :
    ∀ (l : List Elem) (m : List (String × Nat)),
      objGet
        (l.foldl
          (fun result elm =>
            match getAttr elm "w-ref" with
            | some refName => objSet result ("$" ++ refName) elm.id
            | none => result)
          m) k =
      optOr (((l.filter (fun e => refKey e = some k)).map (fun e => e.id)).getLast?)
        (objGet m k) := by
  intro l
  induction l with
  | nil => intro m; simp [optOr]
  | cons e l ih =>
    intro m
    rw [List.foldl_cons]
    rcases h : getAttr e "w-ref" with _ | n
    · have hk : ¬ (refKey e = some k) := by simp [refKey, h]
      rw [List.filter_cons, if_neg (by simpa using hk)]
      simp only [h]
      exact ih m
    · by_cases hk : ("$" ++ n) = k
      · have hkey : refKey e = some k := by simp [refKey, h, hk]
        rw [List.filter_cons, if_pos (by simpa using hkey)]
        simp only [h]
        rw [ih, hk, getLast?_cons_optOr, objGet_objSet_self]
        rcases h2 : ((List.filter (fun e => decide (refKey e = some k)) l).map
            (fun e => e.id)).getLast? with _ | x
        · rw [h2, optOr_none, optOr_some]
        · rw [h2, optOr_some, optOr_some]
      · have hkey : ¬ (refKey e = some k) := by
          simp only [refKey, h, Option.map_some]
          intro hc
          exact hk (by injection hc)
        rw [List.filter_cons, if_neg (by simpa using hkey)]
        simp only [h]
        rw [ih, objGet_objSet_ne m _ _ _ (fun hc => hk hc.symm)]

theorem optOr_none_right (a : Option Nat) : optOr a none = a := by
  cases a <;> rfl

theorem dollar_append_inj {a b : String} (h : ("$" ++ a) = ("$" ++ b)) : a = b := by
  have hd := congrArg String.data h
  simp only [String.data_append] at hd
  have hdat : a.data = b.data := List.append_cancel_left hd
  exact String.ext hdat

/-- Shared helper: the registry read of `$n` is the last element in
document order carrying `w-ref="n"`, for every document. -/
theorem collectRefs_eq_last (doc : Doc) (n : String) :
    objGet (collectRefs doc) ("$" ++ n) = lastRefId doc n := by
  have h := collectRefs_fold ("$" ++ n) doc.elems []
  have hfilter :
      doc.elems.filter (fun e => refKey e = some ("$" ++ n)) =
      doc.elems.filter (fun e => getAttr e "w-ref" = some n) := by
    apply List.filter_congr
    intro e _
    have hiff : (refKey e = some ("$" ++ n)) ↔ (getAttr e "w-ref" = some n) := by
      rcases he : getAttr e "w-ref" with _ | m
      · simp [refKey, he]
      · unfold refKey
        rw [he]
        show (some ("$" ++ m) = some ("$" ++ n)) ↔ (some m = some n)
        simp only [Option.some.injEq]
        exact ⟨fun hc => dollar_append_inj hc, fun hc => by rw [hc]⟩
    exact decide_eq_decide.mpr hiff
  have hnil : objGet ([] : List (String × Nat)) ("$" ++ n) = none := rfl
  unfold collectRefs
  rw [h, hfilter, hnil]
  unfold lastRefId
  exact optOr_none_right _

theorem getLast?_map_id (l : List Elem) :
    ((l.map (fun e => e.id)).getLast?) = (l.getLast?).map (fun e => e.id) := by
  induction l with
  | nil => rfl
  | cons a t ih =>
    cases t with
    | nil => rfl
    | cons b t2 => simpa [List.getLast?_cons_cons] using ih

theorem getLast?_append_single (l : List Elem) (a : Elem) : (l ++ [a]).getLast? = some a := by
  induction l with
  | nil => rfl
  | cons x t ih =>
    rcases ht : t ++ [a] with _ | ⟨y, ys⟩
    · exact absurd ht (by simp)
    · rw [List.cons_append, ht, List.getLast?_cons_cons, ← ht, ih]

/-- C8: when several elements carry the same reference name, the registry
maps that (prefixed) name to the last such element in document order:
`collectRefs` is total (it raises nothing and validates nothing), and the
read of `$n` is exactly the last `w-ref="n"` element, duplicates
included. -/
theorem collectRefs_last_found_wins (doc : Doc) (n : String) :
    objGet (collectRefs doc) ("$" ++ n) = lastRefId doc n :=
  collectRefs_eq_last doc n

def dupFirst : Elem := { id := 1, attrs := [("w-ref", "x")] }

def dupSecond : Elem := { id := 2, attrs := [("w-ref", "x")] }

def dupDoc : Doc := ⟨[dupFirst, dupSecond]⟩

/-- C1 counterexample: with two elements both carrying `w-ref="x"`, the
first one is in the document with reference name `x`, yet the registry
does not map `$x` to it (last-found wins), so the claim's unconditional
"maps n to E for every element E with reference name n" fails. -/
theorem refs_maps_every_element_cex :
    dupFirst ∈ dupDoc.elems ∧ getAttr dupFirst "w-ref" = some "x" ∧
    objGet (refs { doc := dupDoc }) ("$" ++ "x") ≠ some dupFirst.id := by
  decide

/-- C1 (amended): for every element E that is the *last* element in
document order carrying reference name n (so in particular whenever n is
unique), the registry read through the `refs` accessor maps `$n` to E;
and because the registry is recomputed from the live document on every
call — never cached — this holds immediately after E is appended to any
document, without re-calling `register`. -/
theorem refs_last_element_fresh (doc : Doc) (n : String) (E : Elem)
    (hlast : (doc.elems.filter (fun e => getAttr e "w-ref" = some n)).getLast? = some E) :
    objGet (refs { doc := doc }) ("$" ++ n) = some E.id ∧
    ∀ (doc2 : Doc) (E2 : Elem), getAttr E2 "w-ref" = some n →
      objGet (refs { doc := ⟨doc2.elems ++ [E2]⟩ }) ("$" ++ n) = some E2.id := by
  constructor
  · show objGet (collectRefs doc) ("$" ++ n) = some E.id
    rw [collectRefs_eq_last]
    unfold lastRefId
    rw [getLast?_map_id, hlast]
    rfl
  · intro doc2 E2 hE2
    show objGet (collectRefs ⟨doc2.elems ++ [E2]⟩) ("$" ++ n) = some E2.id
    rw [collectRefs_eq_last]
    unfold lastRefId
    rw [getLast?_map_id]
    have hfil : (doc2.elems ++ [E2]).filter (fun e => getAttr e "w-ref" = some n)
        = doc2.elems.filter (fun e => getAttr e "w-ref" = some n) ++ [E2] := by
      rw [List.filter_append]
      congr 1
      simp [hE2]
    show ((doc2.elems ++ [E2]).filter (fun e => getAttr e "w-ref" = some n)).getLast?.map
        (fun e => e.id) = some E2.id
    rw [hfil, getLast?_append_single]
    rfl

def freshElemA : Elem := { id := 3, attrs := [("w-ref", "x")] }

def freshElemB : Elem := { id := 7, attrs := [("w-ref", "x")] }

def freshDoc : Doc := ⟨[freshElemA]⟩

theorem refs_last_element_fresh_witness :
    objGet (refs { doc := freshDoc }) ("$" ++ "x") = some freshElemA.id ∧
    objGet (refs { doc := ⟨freshDoc.elems ++ [freshElemB]⟩ }) ("$" ++ "x") = some freshElemB.id := by
  have h := refs_last_element_fresh freshDoc "x" freshElemA (by decide)
  exact ⟨h.1, h.2 freshDoc freshElemB (by decide)⟩

/-! ## C3: the show directive restores the cached display mode -/

/-- C3: for an element whose inline display is a non-empty value other
than "none", applying the show effect with a falsy result caches that
value in `mOriginalDisplay` and forces display "none"; applying it next
with a truthy result restores exactly the cached value (not the empty
string).  If no display mode was ever cached, a truthy result clears any
inline display override. -/
theorem show_hide_then_show_restores (e : Elem) (v1 v2 : Value)
    (hfalsy : truthy v1 = false) (htruthy : truthy v2 = true)
    (hne : e.styleDisplay ≠ "") (hnn : e.styleDisplay ≠ "none") :
    (showEffect e v1).mOriginalDisplay = some e.styleDisplay ∧
    (showEffect e v1).styleDisplay = "none" ∧
    (showEffect (showEffect e v1) v2).styleDisplay = e.styleDisplay ∧
    (∀ e2 : Elem, e2.mOriginalDisplay = none → truthy v2 = true →
      (showEffect e2 v2).styleDisplay = "") := by
  have h1 : showEffect e v1 =
      { e with mOriginalDisplay := some e.styleDisplay, styleDisplay := "none" } := by
    unfold showEffect
    rw [hfalsy]
    simp only [Bool.false_eq_true, if_false]
    rw [if_pos (by simpa using hnn)]
  refine ⟨by rw [h1], by rw [h1], ?_, ?_⟩
  · rw [h1]
    unfold showEffect
    rw [htruthy]
    simp only [if_true]
    rw [if_pos (by simpa using hne)]
  · intro e2 hmo _
    unfold showEffect
    rw [htruthy, hmo]
    rfl

def showWitnessElem : Elem := { id := 0, attrs := [], styleDisplay := "inline-block" }

theorem show_hide_then_show_restores_witness :
    (showEffect showWitnessElem (.bool false)).mOriginalDisplay = some "inline-block" ∧
    (showEffect showWitnessElem (.bool false)).styleDisplay = "none" ∧
    (showEffect (showEffect showWitnessElem (.bool false)) (.bool true)).styleDisplay
      = "inline-block" ∧
    (showEffect { showWitnessElem with styleDisplay := "" } (.bool true)).styleDisplay = "" := by
  have h := show_hide_then_show_restores showWitnessElem (.bool false) (.bool true)
    (by decide) (by decide) (by decide) (by decide)
  exact ⟨h.1, h.2.1, h.2.2.1, h.2.2.2 _ (by decide) (by decide)⟩

/-! ## C9: evaluator failure and return semantics -/

/-- C9: when the compiled snippet throws, `evaluateString` logs the
offending snippet source text (the `console.error` call) and re-throws
the very same error to its caller, never swallowing it; when the snippet
returns normally, `evaluateString` returns the snippet's returned value,
with `jsUndefinedined` standing in when the snippet falls through without a
`return` statement. -/
theorem evaluateString_rethrows_and_returns (prog : Prog) (fuel : Nat)
    (code1 code2 : String) (self : Nat) (ev : Option Event) (st : St)
    (err : Err) (r : Option Value) (st1 st2 : St)
    (hthrow : runCode prog fuel (prog code1) (mkCtx st self ev) (noteRun st code1)
      = (.error err, st1))
    (hret : runCode prog fuel (prog code2) (mkCtx st self ev) (noteRun st code2)
      = (.ok r, st2)) :
    evaluateString prog fuel code1 self ev st = (.error err, noteLog st1 code1) ∧
    (r = none → evaluateString prog fuel code2 self ev st = (.ok Value.jsUndefined, st2)) ∧
    (∀ v, r = some v → evaluateString prog fuel code2 self ev st = (.ok v, st2)) := by
  refine ⟨?_, ?_, ?_⟩
  · unfold evaluateString
    simp only [evalStrWith]
    rw [hthrow]
  · intro hr
    subst hr
    unfold evaluateString
    simp only [evalStrWith]
    rw [hret]
    rfl
  · intro v hr
    subst hr
    unfold evaluateString
    simp only [evalStrWith]
    rw [hret]
    rfl

def progEval : Prog := fun s =>
  if s = "boom" then .throwE "bad"
  else if s = "return 5" then .ret (.lit (.num 5))
  else .fallthrough

def stEval : St := { doc := ⟨[]⟩ }

theorem evaluateString_rethrows_and_returns_witness :
    evaluateString progEval 3 "boom" 0 none stEval
      = (.error (.thrown "bad"), noteLog (noteRun stEval "boom") "boom") ∧
    evaluateString progEval 3 "return 5" 0 none stEval
      = (.ok (Value.num 5), noteRun stEval "return 5") ∧
    evaluateString progEval 3 "nothing" 0 none stEval
      = (.ok Value.jsUndefined, noteRun stEval "nothing") := by
  have h1 := evaluateString_rethrows_and_returns progEval 3 "boom" "return 5" 0 none stEval
    (.thrown "bad") (some (.num 5)) (noteRun stEval "boom") (noteRun stEval "return 5")
    rfl rfl
  have h2 := evaluateString_rethrows_and_returns progEval 3 "boom" "nothing" 0 none stEval
    (.thrown "bad") none (noteRun stEval "boom") (noteRun stEval "nothing")
    rfl rfl
  exact ⟨h1.1, h1.2.2 (.num 5) rfl, h2.2.1 rfl⟩

/-! ## C10: submit binding without a containing form -/

theorem regEvents_submit_null_form (elm : Elem) (code : String)
    (hattr : getAttr elm "w-on:submit" = some code) (hform : elm.form = none) :
    ∀ (names : List String) (st : St), "submit" ∈ names →
      (regEvents elm names st).1 = .error .nullFormAccess ∧
      (∀ l, l ∈ (regEvents elm names st).2.listeners →
        l ∈ st.listeners ∨ l.eventName ≠ "submit") := by
  intro names
  induction names with
  | nil => intro st h; simp at h
  | cons k rest ih =>
    intro st hmem
    by_cases hk : k = "submit"
    · subst hk
      have happ : ("w-on:" ++ "submit" : String) = "w-on:submit" := rfl
      simp only [regEvents, happ, hattr, if_pos rfl, hform]
      exact ⟨rfl, fun l hl => Or.inl hl⟩
    · have hmem2 : "submit" ∈ rest := by
        rcases List.mem_cons.mp hmem with h | h
        · exact absurd h.symm hk
        · exact h
      rcases hattr2 : getAttr elm ("w-on:" ++ k) with _ | c
      · simp only [regEvents, hattr2]
        exact ih st hmem2
      · simp only [regEvents, hattr2, if_neg hk]
        have h2 := ih
          { st with listeners := st.listeners ++
              [{ target := elm.id, eventName := k, sourceElm := elm.id,
                 code := c, submitGuard := false }] } hmem2
        refine ⟨h2.1, fun l hl => ?_⟩
        rcases h2.2 l hl with h | h
        · simp only [List.mem_append, List.mem_singleton] at h
          rcases h with h | h
          · exact Or.inl h
          · refine Or.inr ?_
            rw [h]
            exact hk
        · exact Or.inr h

/-- C10: an element carrying `w-on:submit` but no containing form makes
`registerEventHandler` fail with the null-form dereference
(`elm.form.addEventListener`); no submit listener is attached anywhere —
in particular none falls back onto the element itself — and `register`
on a scope whose scan starts with that element propagates the same
failure. -/
theorem submit_without_form_fails (st : St) (id : Nat) (elm : Elem) (code : String)
    (prog : Prog) (fuel : Nat) (rest : List Nat)
    (helm : getElem st.doc id = some elm)
    (hattr : getAttr elm "w-on:submit" = some code)
    (hform : elm.form = none)
    (hscan : scanElements st.doc = id :: rest) :
    (registerEventHandler id st).1 = .error .nullFormAccess ∧
    (∀ l, l ∈ (registerEventHandler id st).2.listeners →
      l ∈ st.listeners ∨ l.eventName ≠ "submit") ∧
    (register prog fuel st).1 = .error .nullFormAccess := by
  have hsub : "submit" ∈ AVAILABLE_EVENT_NAMES := by decide
  have hreh : registerEventHandler id st = regEvents elm AVAILABLE_EVENT_NAMES st := by
    unfold registerEventHandler
    rw [helm]
  have h := regEvents_submit_null_form elm code hattr hform AVAILABLE_EVENT_NAMES st hsub
  refine ⟨by rw [hreh]; exact h.1, by rw [hreh]; exact h.2, ?_⟩
  unfold register
  rw [hscan]
  have h1 : (registerEventHandler id st).1 = .error .nullFormAccess := by
    rw [hreh]
    exact h.1
  rcases hr : registerEventHandler id st with ⟨r, st1⟩
  rw [hr] at h1
  simp only at h1
  subst h1
  simp only [registerLoop]
  rw [hr]

def orphanElem : Elem := { id := 0, attrs := [("w-on:submit", "s")] }

def orphanSt : St := { doc := ⟨[orphanElem]⟩ }

theorem submit_without_form_fails_witness :
    (registerEventHandler 0 orphanSt).1 = .error .nullFormAccess ∧
    (register (fun _ => .fallthrough) 1 orphanSt).1 = .error .nullFormAccess := by
  have h := submit_without_form_fails orphanSt 0 orphanElem "s" (fun _ => .fallthrough) 1 []
    (by decide) (by decide) (by decide) (by decide)
  exact ⟨h.1, h.2.2⟩

/-! ## C4: submit bindings attach to the containing form and guard on the
submitter -/

/-- The listener shape `registerEventHandler` attaches for `submit`:
on the containing form, guarded by `ev.submitter == elm`. -/
def submitListener (formId elmId : Nat) (c : String) : Listener :=
  { target := formId, eventName := "submit", sourceElm := elmId,
    code := c, submitGuard := true }

theorem regEvents_submit_only (elm : Elem) (code : String) (fid : Nat)
    (hattr : getAttr elm "w-on:submit" = some code) (hform : elm.form = some fid)
    (honly : ∀ k, k ∈ AVAILABLE_EVENT_NAMES → k ≠ "submit" →
      getAttr elm ("w-on:" ++ k) = none) :
    ∀ st : St, regEvents elm AVAILABLE_EVENT_NAMES st =
      (.ok (), { st with listeners := st.listeners ++ [submitListener fid elm.id code] }) := by
  intro st
  have hb := honly "blur" (by decide) (by decide)
  have hc := honly "click" (by decide) (by decide)
  have hch := honly "change" (by decide) (by decide)
  have hku := honly "keyup" (by decide) (by decide)
  have hkd := honly "keydown" (by decide) (by decide)
  have happ : ("w-on:" ++ "submit" : String) = "w-on:submit" := rfl
  simp only [AVAILABLE_EVENT_NAMES, regEvents, hb, hc, hch, hku, hkd, happ, hattr,
    if_pos rfl, hform, submitListener]
  exact if_pos trivial

/-- C4: for two submit controls A and B of the same form, each carrying
`w-on:submit`, binding attaches each listener to the containing form
(not to the control itself), and dispatching a submit event whose
submitter is A evaluates exactly A's snippet and not B's: the only
snippet the dispatch runs is `codeA`. -/
theorem submit_fires_only_submitter (st : St) (A B : Elem) (f : Nat)
    (codeA codeB : String) (prog : Prog) (fuel : Nat) (v : Value)
    (hA : getElem st.doc A.id = some A)
    (hformA : A.form = some f) (hattrA : getAttr A "w-on:submit" = some codeA)
    (honlyA : ∀ k, k ∈ AVAILABLE_EVENT_NAMES → k ≠ "submit" →
      getAttr A ("w-on:" ++ k) = none)
    (hB : getElem st.doc B.id = some B)
    (hformB : B.form = some f) (hattrB : getAttr B "w-on:submit" = some codeB)
    (honlyB : ∀ k, k ∈ AVAILABLE_EVENT_NAMES → k ≠ "submit" →
      getAttr B ("w-on:" ++ k) = none)
    (hne : B.id ≠ A.id) (hfa : f ≠ A.id)
    (hlist : st.listeners = [])
    (hprogA : prog codeA = .ret (.lit v)) :
    (registerEventHandler B.id ((registerEventHandler A.id st).2)).2.listeners =
      [submitListener f A.id codeA, submitListener f B.id codeB] ∧
    (∀ l, l ∈ (registerEventHandler B.id ((registerEventHandler A.id st).2)).2.listeners →
      l.target = f ∧ l.target ≠ A.id) ∧
    dispatchEvent prog fuel { name := "submit", target := f, submitter := some A.id }
        (registerEventHandler B.id ((registerEventHandler A.id st).2)).2 =
      { (registerEventHandler B.id ((registerEventHandler A.id st).2)).2 with
          runs := (registerEventHandler B.id ((registerEventHandler A.id st).2)).2.runs
            ++ [codeA] } := by
  have e1 : registerEventHandler A.id st =
      (.ok (), { st with listeners := st.listeners ++ [submitListener f A.id codeA] }) := by
    unfold registerEventHandler
    rw [hA]
    exact regEvents_submit_only A codeA f hattrA hformA honlyA st
  rw [e1]
  set stA : St := { st with listeners := st.listeners ++ [submitListener f A.id codeA] } with hstA
  have hdocA : stA.doc = st.doc := rfl
  have e2 : registerEventHandler B.id stA =
      (.ok (), { stA with listeners := stA.listeners ++ [submitListener f B.id codeB] }) := by
    unfold registerEventHandler
    rw [hdocA, hB]
    exact regEvents_submit_only B codeB f hattrB hformB honlyB stA
  rw [e2]
  set st2 : St := { stA with listeners := stA.listeners ++ [submitListener f B.id codeB] } with hst2
  have hls : st2.listeners = [submitListener f A.id codeA, submitListener f B.id codeB] := by
    show stA.listeners ++ [submitListener f B.id codeB] = _
    rw [hstA]
    show st.listeners ++ [submitListener f A.id codeA] ++ [submitListener f B.id codeB] = _
    rw [hlist]
    rfl
  refine ⟨hls, ?_, ?_⟩
  · intro l hl
    rw [hls] at hl
    simp only [List.mem_cons, List.not_mem_nil, or_false] at hl
    rcases hl with hl | hl
    · subst hl
      exact ⟨rfl, hfa⟩
    · subst hl
      exact ⟨rfl, hfa⟩
  · unfold dispatchEvent
    rw [hls]
    have hev : evaluateString prog fuel codeA A.id
        (some { name := "submit", target := f, submitter := some A.id }) st2 =
        (.ok v, noteRun st2 codeA) := by
      unfold evaluateString evalStrWith
      rw [hprogA]
      simp only [runCode]
      rfl
    simp only [dispatchList]
    rw [if_pos (⟨rfl, rfl⟩ :
      ((submitListener f A.id codeA).target = f ∧
        (submitListener f A.id codeA).eventName = "submit"))]
    have hrunA : runListener prog fuel (submitListener f A.id codeA)
        { name := "submit", target := f, submitter := some A.id } st2 = noteRun st2 codeA := by
      unfold runListener submitListener
      simp only [if_pos rfl]
      unfold handleEvent
      rw [hev]
      simp
    rw [hrunA]
    have hguardB : ¬ (({ name := "submit", target := f, submitter := some A.id } : Event).submitter
        = some (submitListener f B.id codeB).sourceElm) := by
      unfold submitListener
      intro hc
      simp only [Option.some.injEq] at hc
      exact hne hc.symm
    rw [if_pos (⟨rfl, rfl⟩ :
      ((submitListener f B.id codeB).target = f ∧
        (submitListener f B.id codeB).eventName = "submit"))]
    have hrunB : runListener prog fuel (submitListener f B.id codeB)
        { name := "submit", target := f, submitter := some A.id } (noteRun st2 codeA) =
        noteRun st2 codeA := by
      unfold runListener
      rw [if_pos (show (submitListener f B.id codeB).submitGuard = true from rfl),
        if_neg hguardB]
    rw [hrunB]
    rfl

def formCtlA : Elem := { id := 1, attrs := [("w-on:submit", "sa")], form := some 10 }

def formCtlB : Elem := { id := 2, attrs := [("w-on:submit", "sb")], form := some 10 }

def formSt : St := { doc := ⟨[formCtlA, formCtlB]⟩ }

def progSubmit : Prog := fun s => if s = "sa" then .ret (.lit (.num 1)) else .fallthrough

def formRegSt : St :=
  (registerEventHandler formCtlB.id ((registerEventHandler formCtlA.id formSt).2)).2

theorem submit_fires_only_submitter_witness :
    formRegSt.listeners =
      [submitListener 10 formCtlA.id "sa", submitListener 10 formCtlB.id "sb"] ∧
    dispatchEvent progSubmit 3 { name := "submit", target := 10, submitter := some formCtlA.id }
        formRegSt = { formRegSt with runs := formRegSt.runs ++ ["sa"] } := by
  have h := submit_fires_only_submitter formSt formCtlA formCtlB 10 "sa" "sb" progSubmit 3
    (.num 1) (by decide) (by decide) (by decide) (by decide) (by decide) (by decide)
    (by decide) (by decide) (by decide) (by decide) (by decide) rfl
  exact ⟨h.1, h.2.2⟩

/-! ## C2: a throwing directive aborts the rest of the update pass -/

def progAbort : Prog := fun s =>
  if s = "boom" then .throwE "boom"
  else if s = "return hi" then .ret (.lit (.str "hi"))
  else .fallthrough

def abortElem : Elem := { id := 0, attrs := [("w-value", "boom"), ("w-text", "return hi")] }

def abortSt : St := { doc := ⟨[abortElem]⟩ }

/-- C2 counterexample: on an element carrying `w-value` (whose snippet
throws) and `w-text` (whose snippet would return "hi"), `updateElement`
re-raises the `w-value` error and the `w-text` directive is never
attempted — the element's text stays empty instead of becoming "hi".
The claim's "the engine still attempts the remaining directives" is
false. -/
theorem directive_failure_aborts_cex :
    (updateElement progAbort 5 0 abortSt).1 = .error (.thrown "boom") ∧
    progAbort "return hi" = .ret (.lit (.str "hi")) ∧
    (getElem (updateElement progAbort 5 0 abortSt).2.doc 0).map (fun e => e.textContent)
      = some "" := ⟨rfl, rfl, rfl⟩

/-- C2 (amended): directives on one element are NOT attempted
independently: when the first present directive's snippet throws (here
`w-show`, the head of the table), `updateElement` re-raises immediately,
leaving the document untouched — the remaining directives of that element
are never attempted — and within the same `updateElements` pass the
subsequent target elements are not updated either; only evaluations in
separate invocations are unaffected (the error state differs from the
input state only in the console log and the ghost traces). -/
theorem directive_failure_aborts (prog : Prog) (fuel : Nat) (st : St) (id : Nat) (elm : Elem)
    (c0 msg : String)
    (helm : getElem st.doc id = some elm)
    (hshow : getAttr elm "w-show" = some c0)
    (hthrow : prog c0 = .throwE msg) :
    updateElement prog fuel id st =
      (.error (.thrown msg), noteLog (noteRun (noteDir st id "w-show") c0) c0) ∧
    ∀ vs, updateValues prog fuel (.elem id :: vs) st =
      (.error (.thrown msg), noteLog (noteRun (noteDir st id "w-show") c0) c0) := by
  have h1 : updateElement prog fuel id st =
      (.error (.thrown msg), noteLog (noteRun (noteDir st id "w-show") c0) c0) := by
    unfold updateElement updateDirs
    simp only [AVAILABLE_DIRECTIVES, updateDirsWith, helm, hshow]
    unfold evaluateString evalStrWith
    rw [hthrow]
    simp only [runCode]
  refine ⟨h1, fun vs => ?_⟩
  unfold updateValues updateValuesWith
  simp only [h1]

def showAbortElem : Elem := { id := 4, attrs := [("w-show", "boom"), ("w-text", "return hi")] }

def showAbortSt : St := { doc := ⟨[showAbortElem, abortElem]⟩ }

theorem directive_failure_aborts_witness :
    updateElement progAbort 5 4 showAbortSt =
      (.error (.thrown "boom"),
        noteLog (noteRun (noteDir showAbortSt 4 "w-show") "boom") "boom") ∧
    updateValues progAbort 5 [.elem 4, .elem 0] showAbortSt =
      (.error (.thrown "boom"),
        noteLog (noteRun (noteDir showAbortSt 4 "w-show") "boom") "boom") := by
  have h := directive_failure_aborts progAbort 5 showAbortSt 4 showAbortElem "boom" "boom"
    (by decide) (by decide) rfl
  exact ⟨h.1, h.2 [.elem 0]⟩

/-! ## C5: the initial-scan / click-update scenario -/

def progScenario : Prog := fun s =>
  if s = "return 1+1" then .ret (.add (.lit (.num 1)) (.lit (.num 1)))
  else if s = "wUpdate($t)" then .updateCall [.refIdx "$t"]
  else .fallthrough

def dataSpanT : Elem :=
  { id := 0, attrs := [("data-ref", "t"), ("data-text", "return 1+1")] }

def dataSpanClick : Elem := { id := 1, attrs := [("data-on-click", "wUpdate($t)")] }

def dataScenarioSt : St := { doc := ⟨[dataSpanT, dataSpanClick]⟩ }

/-- C5 counterexample: with the attribute spelling the claim writes
(`data-ref`, `data-text`, `data-on-click`), the scanner's selector list
matches nothing — `register` returns leaving the document unchanged, so
the span's text does not become "2". -/
theorem scenario_data_attrs_cex :
    (register progScenario 10 dataScenarioSt).1 = .ok () ∧
    (getElem (register progScenario 10 dataScenarioSt).2.doc 0).map (fun e => e.textContent)
      ≠ some "2" ∧
    (register progScenario 10 dataScenarioSt).2 = dataScenarioSt :=
  ⟨rfl, by decide, rfl⟩

def spanT : Elem := { id := 0, attrs := [("w-ref", "t"), ("w-text", "return 1+1")] }

def spanClick : Elem := { id := 1, attrs := [("w-on:click", "wUpdate($t)")] }

def scenarioSt : St := { doc := ⟨[spanT, spanClick]⟩ }

/-- C5 (amended): with the source's attribute names — `w-ref="t"`,
`w-text="return 1+1"`, `w-on:click="wUpdate($t)"` — the initial scan
sets the first span's text content to "2"; and clicking the second span
re-runs t's directives with the then-current evaluated result: after
external code overwrites the text with "stale", dispatching the click
event restores "2" through `wUpdate($t)`. -/
theorem scenario_w_attrs :
    (register progScenario 10 scenarioSt).1 = .ok () ∧
    (getElem (register progScenario 10 scenarioSt).2.doc 0).map (fun e => e.textContent)
      = some "2" ∧
    (getElem (extSetText (register progScenario 10 scenarioSt).2 0 "stale").doc 0).map
      (fun e => e.textContent) = some "stale" ∧
    (getElem (dispatchEvent progScenario 10 { name := "click", target := 1 }
        (extSetText (register progScenario 10 scenarioSt).2 0 "stale")).doc 0).map
      (fun e => e.textContent) = some "2" :=
  ⟨rfl, rfl, rfl, rfl⟩

/-! ## C6: update passes with pure snippets are idempotent -/

/-- The constant value of a pure (return-a-literal) snippet. -/
def litVal (prog : Prog) (code : String) : Value :=
  match prog code with
  | .ret (.lit v) => v
  | _ => .jsUndefined

/-- What one update pass does to the updated element itself when every
snippet on it is pure: fold the directive effects with the snippets'
constant values. -/
def applyPure (prog : Prog) : List (String × (Elem → Value → Elem)) → Elem → Elem
  | [], e => e
  | (dn, dh) :: rest, e =>
    match getAttr e dn with
    | some code => applyPure prog rest (dh e (litVal prog code))
    | none => applyPure prog rest e

theorem showEffect_fields (e : Elem) (v : Value) :
    (showEffect e v).attrs = e.attrs ∧ (showEffect e v).id = e.id ∧
    (showEffect e v).textContent = e.textContent ∧
    (showEffect e v).innerHTML = e.innerHTML ∧ (showEffect e v).value = e.value := by
  unfold showEffect
  by_cases h : truthy v = true
  · rw [if_pos h]
    cases hmo : e.mOriginalDisplay with
    | none => exact ⟨rfl, rfl, rfl, rfl, rfl⟩
    | some d =>
      by_cases hd : (d != "") = true <;> simp [hd]
  · rw [if_neg h]
    cases hsd : (e.styleDisplay != "none") <;> simp [hsd]

theorem getAttr_congr {e1 e2 : Elem} (h : e1.attrs = e2.attrs) (n : String) :
    getAttr e1 n = getAttr e2 n := by
  unfold getAttr
  rw [h]

theorem getAttr_showEffect (e : Elem) (v : Value) (n : String) :
    getAttr (showEffect e v) n = getAttr e n :=
  getAttr_congr (showEffect_fields e v).1 n

theorem AD_preserves : ∀ p ∈ AVAILABLE_DIRECTIVES, ∀ (e : Elem) (v : Value),
    ((p.2 e v).attrs = e.attrs ∧ (p.2 e v).id = e.id) := by
  intro p hp
  simp only [AVAILABLE_DIRECTIVES, List.mem_cons, List.not_mem_nil, or_false] at hp
  rcases hp with h | h | h | h | h <;> subst h <;> intro e v
  · exact ⟨(showEffect_fields e v).1, (showEffect_fields e v).2.1⟩
  · exact ⟨rfl, rfl⟩
  · exact ⟨rfl, rfl⟩
  · exact ⟨rfl, rfl⟩
  · exact ⟨rfl, rfl⟩

theorem applyPure_attrs (prog : Prog) (L : List (String × (Elem → Value → Elem)))
    (hL : ∀ p ∈ L, ∀ (e : Elem) (v : Value), ((p.2 e v).attrs = e.attrs ∧ (p.2 e v).id = e.id)) :
    ∀ e : Elem, (applyPure prog L e).attrs = e.attrs := by
  induction L with
  | nil => intro e; rfl
  | cons p rest ih =>
    intro e
    rcases p with ⟨dn, dh⟩
    have hrest : ∀ p ∈ rest, ∀ (e : Elem) (v : Value),
        ((p.2 e v).attrs = e.attrs ∧ (p.2 e v).id = e.id) :=
      fun p hp => hL p (List.mem_cons_of_mem _ hp)
    rcases h : getAttr e dn with _ | code
    · simp only [applyPure, h]
      exact ih hrest e
    · simp only [applyPure, h]
      rw [ih hrest (dh e (litVal prog code))]
      exact (hL (dn, dh) (List.mem_cons_self _ _) e (litVal prog code)).1

theorem find?_map_update (l : List Elem) (id : Nat) (f : Elem → Elem)
    (hid : ∀ e, (f e).id = e.id) :
    (l.map (fun e => if e.id = id then f e else e)).find? (fun e => e.id = id) =
      (l.find? (fun e => e.id = id)).map f := by
  induction l with
  | nil => rfl
  | cons a t ih =>
    by_cases ha : a.id = id
    · rw [List.map_cons, if_pos ha,
        List.find?_cons_of_pos _ (by simp [hid, ha]),
        List.find?_cons_of_pos _ (by simp [ha])]
      rfl
    · rw [List.map_cons, if_neg ha,
        List.find?_cons_of_neg _ (by simp [ha]),
        List.find?_cons_of_neg _ (by simp [ha])]
      exact ih

theorem getElem_updateDoc (doc : Doc) (id : Nat) (f : Elem → Elem)
    (hid : ∀ e, (f e).id = e.id) :
    getElem (updateDoc doc id f) id = (getElem doc id).map f := by
  unfold getElem updateDoc
  exact find?_map_update doc.elems id f hid

theorem evaluateString_ret_lit (prog : Prog) (fuel : Nat) (code : String) (self : Nat)
    (ev : Option Event) (st : St) (v : Value) (hc : prog code = .ret (.lit v)) :
    evaluateString prog fuel code self ev st = (.ok v, noteRun st code) := by
  unfold evaluateString evalStrWith
  rw [hc]
  simp only [runCode]
  rfl

/-- One update pass on an element whose snippets are all pure succeeds and
turns the element into `applyPure` of it (everything else about the
document is irrelevant here). -/
theorem updateDirs_pure (prog : Prog) (fuel : Nat) :
    ∀ (L : List (String × (Elem → Value → Elem))),
      (∀ p ∈ L, ∀ (e : Elem) (v : Value), ((p.2 e v).attrs = e.attrs ∧ (p.2 e v).id = e.id)) →
      ∀ (st : St) (id : Nat) (elm : Elem),
        getElem st.doc id = some elm →
        (∀ p code, p ∈ L → getAttr elm p.1 = some code →
          prog code = .ret (.lit (litVal prog code))) →
        (updateDirs prog fuel L id st).1 = .ok () ∧
        getElem (updateDirs prog fuel L id st).2.doc id = some (applyPure prog L elm) := by
  intro L
  induction L with
  | nil =>
    intro _ st id elm helm _
    exact ⟨rfl, by simpa [applyPure, updateDirs, updateDirsWith] using helm⟩
  | cons p rest ih =>
    rcases p with ⟨dn, dh⟩
    intro hL st id elm helm hpure
    have hrest : ∀ p ∈ rest, ∀ (e : Elem) (v : Value),
        ((p.2 e v).attrs = e.attrs ∧ (p.2 e v).id = e.id) :=
      fun p hp => hL p (List.mem_cons_of_mem _ hp)
    rcases hattr : getAttr elm dn with _ | code
    · have hstep : updateDirs prog fuel ((dn, dh) :: rest) id st
          = updateDirs prog fuel rest id st := by
        show updateDirsWith (fun code self st => evaluateString prog fuel code self none st)
            ((dn, dh) :: rest) id st = _
        simp only [updateDirsWith, helm, hattr]
        rfl
      rw [hstep]
      refine ih hrest st id elm helm ?_ |>.imp (fun h => h) ?_
      · exact fun p code hp hc => hpure p code (List.mem_cons_of_mem _ hp) hc
      · intro h
        rw [h]
        simp only [applyPure, hattr]
    · have hlit := hpure (dn, dh) code (List.mem_cons_self _ _) hattr
      have heval := evaluateString_ret_lit prog fuel code id none
        (noteDir st id dn) (litVal prog code) hlit
      have hstep : updateDirs prog fuel ((dn, dh) :: rest) id st
          = updateDirs prog fuel rest id
              (applyEffect dh (litVal prog code) id (noteRun (noteDir st id dn) code)) := by
        show updateDirsWith (fun code self st => evaluateString prog fuel code self none st)
            ((dn, dh) :: rest) id st = _
        simp only [updateDirsWith, helm, hattr, heval]
        rfl
      rw [hstep]
      set stB := applyEffect dh (litVal prog code) id (noteRun (noteDir st id dn) code) with hstB
      have helmB : getElem stB.doc id = some (dh elm (litVal prog code)) := by
        rw [hstB]
        show getElem (updateDoc st.doc id (fun e => dh e (litVal prog code))) id = _
        rw [getElem_updateDoc _ _ _
          (fun e => (hL (dn, dh) (List.mem_cons_self _ _) e (litVal prog code)).2), helm]
        rfl
      have hattrsB : (dh elm (litVal prog code)).attrs = elm.attrs :=
        (hL (dn, dh) (List.mem_cons_self _ _) elm (litVal prog code)).1
      have hpureB : ∀ p code2, p ∈ rest → getAttr (dh elm (litVal prog code)) p.1 = some code2 →
          prog code2 = .ret (.lit (litVal prog code2)) := by
        intro p code2 hp hc
        rw [getAttr_congr hattrsB] at hc
        exact hpure p code2 (List.mem_cons_of_mem _ hp) hc
      refine (ih hrest stB id (dh elm (litVal prog code)) helmB hpureB).imp (fun h => h) ?_
      intro h
      rw [h]
      simp only [applyPure, hattr]

theorem showEffect_attrs (e : Elem) (v : Value) :
    (showEffect e v).attrs = e.attrs := (showEffect_fields e v).1

theorem showEffect_textContent (e : Elem) (v : Value) :
    (showEffect e v).textContent = e.textContent := (showEffect_fields e v).2.2.1

theorem showEffect_innerHTML (e : Elem) (v : Value) :
    (showEffect e v).innerHTML = e.innerHTML := (showEffect_fields e v).2.2.2.1

theorem showEffect_value (e : Elem) (v : Value) :
    (showEffect e v).value = e.value := (showEffect_fields e v).2.2.2.2

/-- What one pure update pass leaves in the three directive-written DOM
fields: each is overwritten with its snippet's constant when the matching
attribute is present, untouched otherwise. -/
theorem applyPure_AD_fields (prog : Prog) (e : Elem) :
    (applyPure prog AVAILABLE_DIRECTIVES e).textContent =
      (match getAttr e "w-text" with
       | some c => jsToString (litVal prog c)
       | none => e.textContent) ∧
    (applyPure prog AVAILABLE_DIRECTIVES e).innerHTML =
      (match getAttr e "w-html" with
       | some c => jsToString (litVal prog c)
       | none => e.innerHTML) ∧
    (applyPure prog AVAILABLE_DIRECTIVES e).value =
      (match getAttr e "w-value" with
       | some c => jsToString (litVal prog c)
       | none => e.value) := by
  simp only [AVAILABLE_DIRECTIVES, applyPure, getAttr]
  rcases h1 : e.attrs.find? (fun p => p.1 = "w-show") with _ | p1 <;>
  rcases h2 : e.attrs.find? (fun p => p.1 = "w-value") with _ | p2 <;>
  rcases h3 : e.attrs.find? (fun p => p.1 = "w-update") with _ | p3 <;>
  rcases h4 : e.attrs.find? (fun p => p.1 = "w-text") with _ | p4 <;>
  rcases h5 : e.attrs.find? (fun p => p.1 = "w-html") with _ | p5 <;>
    simp [h1, h2, h3, h4, h5, getAttr, showEffect_attrs, showEffect_textContent,
      showEffect_innerHTML, showEffect_value]

/-- C6: for an element whose directive snippets are pure (each evaluates
to a constant literal, independent of state and without side effects),
triggering the update pass twice in a row with unchanged inputs yields
the same final DOM state — textContent, innerHTML and input value — as
triggering it once. -/
theorem triggerUpdate_idempotent (prog : Prog) (fuel : Nat) (id : Nat) (st : St) (elm : Elem)
    (helm : getElem st.doc id = some elm)
    (hpure : ∀ p code, p ∈ AVAILABLE_DIRECTIVES → getAttr elm p.1 = some code →
      ∃ v, prog code = .ret (.lit v)) :
    (updateElement prog fuel id st).1 = .ok () ∧
    (updateElement prog fuel id (updateElement prog fuel id st).2).1 = .ok () ∧
    (getElem (updateElement prog fuel id (updateElement prog fuel id st).2).2.doc id).map
        (fun e => (e.textContent, e.innerHTML, e.value)) =
      (getElem (updateElement prog fuel id st).2.doc id).map
        (fun e => (e.textContent, e.innerHTML, e.value)) := by
  have hpure' : ∀ p code, p ∈ AVAILABLE_DIRECTIVES → getAttr elm p.1 = some code →
      prog code = .ret (.lit (litVal prog code)) := by
    intro p code hp hc
    obtain ⟨v, hv⟩ := hpure p code hp hc
    rw [hv]
    simp [litVal, hv]
  have h1 := updateDirs_pure prog fuel AVAILABLE_DIRECTIVES AD_preserves st id elm helm hpure'
  have hattrs1 : (applyPure prog AVAILABLE_DIRECTIVES elm).attrs = elm.attrs :=
    applyPure_attrs prog _ AD_preserves elm
  have hpure1 : ∀ p code, p ∈ AVAILABLE_DIRECTIVES →
      getAttr (applyPure prog AVAILABLE_DIRECTIVES elm) p.1 = some code →
      prog code = .ret (.lit (litVal prog code)) := by
    intro p code hp hc
    rw [getAttr_congr hattrs1] at hc
    exact hpure' p code hp hc
  have h2 := updateDirs_pure prog fuel AVAILABLE_DIRECTIVES AD_preserves
    (updateDirs prog fuel AVAILABLE_DIRECTIVES id st).2 id
    (applyPure prog AVAILABLE_DIRECTIVES elm) h1.2 hpure1
  have hue : ∀ (s : St), updateElement prog fuel id s =
      updateDirs prog fuel AVAILABLE_DIRECTIVES id s := fun _ => rfl
  rw [hue, hue]
  refine ⟨h1.1, h2.1, ?_⟩
  rw [h2.2, h1.2]
  have hf1 := applyPure_AD_fields prog elm
  have hf2 := applyPure_AD_fields prog (applyPure prog AVAILABLE_DIRECTIVES elm)
  have htext : (applyPure prog AVAILABLE_DIRECTIVES (applyPure prog AVAILABLE_DIRECTIVES
      elm)).textContent = (applyPure prog AVAILABLE_DIRECTIVES elm).textContent := by
    rw [hf2.1, getAttr_congr hattrs1 "w-text"]
    rcases ht : getAttr elm "w-text" with _ | c <;> simp only [ht, hf1.1]
  have hhtml : (applyPure prog AVAILABLE_DIRECTIVES (applyPure prog AVAILABLE_DIRECTIVES
      elm)).innerHTML = (applyPure prog AVAILABLE_DIRECTIVES elm).innerHTML := by
    rw [hf2.2.1, getAttr_congr hattrs1 "w-html"]
    rcases ht : getAttr elm "w-html" with _ | c <;> simp only [ht, hf1.2.1]
  have hvalue : (applyPure prog AVAILABLE_DIRECTIVES (applyPure prog AVAILABLE_DIRECTIVES
      elm)).value = (applyPure prog AVAILABLE_DIRECTIVES elm).value := by
    rw [hf2.2.2, getAttr_congr hattrs1 "w-value"]
    rcases ht : getAttr elm "w-value" with _ | c <;> simp only [ht, hf1.2.2]
  simp only [Option.map, htext, hhtml, hvalue]

def pureElem : Elem := { id := 0, attrs := [("w-text", "t2"), ("w-value", "v2")] }

def progPure : Prog := fun s =>
  if s = "t2" then .ret (.lit (.str "hi"))
  else if s = "v2" then .ret (.lit (.num 7))
  else .fallthrough

def stPure : St := { doc := ⟨[pureElem]⟩ }

theorem triggerUpdate_idempotent_witness :
    (updateElement progPure 3 0 stPure).1 = .ok () ∧
    (getElem (updateElement progPure 3 0 (updateElement progPure 3 0 stPure).2).2.doc 0).map
        (fun e => (e.textContent, e.innerHTML, e.value)) =
      (getElem (updateElement progPure 3 0 stPure).2.doc 0).map
        (fun e => (e.textContent, e.innerHTML, e.value)) := by
  have hp : ∀ p code, p ∈ AVAILABLE_DIRECTIVES → getAttr pureElem p.1 = some code →
      ∃ v, progPure code = .ret (.lit v) := by
    intro p code hp hc
    simp only [AVAILABLE_DIRECTIVES, List.mem_cons, List.not_mem_nil, or_false] at hp
    rcases hp with h | h | h | h | h <;> subst h
    · have hn : getAttr pureElem "w-show" = none := by decide
      rw [hn] at hc
      exact absurd hc (by simp)
    · have hn : getAttr pureElem "w-value" = some "v2" := by decide
      rw [hn] at hc
      injection hc with h2
      subst h2
      exact ⟨.num 7, rfl⟩
    · have hn : getAttr pureElem "w-update" = none := by decide
      rw [hn] at hc
      exact absurd hc (by simp)
    · have hn : getAttr pureElem "w-text" = some "t2" := by decide
      rw [hn] at hc
      injection hc with h2
      subst h2
      exact ⟨.str "hi", rfl⟩
    · have hn : getAttr pureElem "w-html" = none := by decide
      rw [hn] at hc
      exact absurd hc (by simp)
  have h := triggerUpdate_idempotent progPure 3 0 stPure pureElem (by decide) hp
  exact ⟨h.1, h.2.2⟩

/-! ## C7: fixed directive order within an element, document order across
elements

The ghost `trace` field records each `(element, directive)` evaluation
the moment `updateElement` finds the attribute present, so the trace is
the observable application order.  A snippet that itself calls the
update trigger interleaves further (nested) directive applications into
the trace, so the ordering statements below restrict the snippets of the
involved elements to plain code (anything but a `wUpdate` call). -/

/-- Code that cannot re-enter the engine. -/
def isPlainCode : Code → Bool
  | .updateCall _ => false
  | _ => true

/-- The expected directive-application trace of one element: the
directive kinds present on it, in table declaration order. -/
def elementTrace (e : Elem) : List (Nat × String) :=
  (DIRECTIVE_ORDER.filter (fun dn => (getAttr e dn).isSome)).map (fun dn => (e.id, dn))

/-- The attributes of the element with a given id, if present. -/
def attrsAt (st : St) (id : Nat) : Option (List (String × String)) :=
  (getElem st.doc id).map (fun e => e.attrs)

theorem evaluateString_plain (prog : Prog) (fuel : Nat) (code : String) (self : Nat)
    (ev : Option Event) (st : St) (hp : isPlainCode (prog code) = true) :
    (evaluateString prog fuel code self ev st).2.doc = st.doc ∧
    (evaluateString prog fuel code self ev st).2.trace = st.trace ∧
    (evaluateString prog fuel code self ev st).2.listeners = st.listeners := by
  unfold evaluateString evalStrWith
  rcases hc : prog code with _ | e | msg | args
  · simp only [runCode]
    exact ⟨rfl, rfl, rfl⟩
  · simp only [runCode]
    exact ⟨rfl, rfl, rfl⟩
  · simp only [runCode]
    exact ⟨rfl, rfl, rfl⟩
  · rw [hc] at hp
    exact absurd hp (by simp [isPlainCode])

theorem attrsAt_update (l : List Elem) (id j : Nat) (f : Elem → Elem)
    (hid : ∀ e, (f e).id = e.id) (hattrs : ∀ e, (f e).attrs = e.attrs) :
    ((l.map (fun e => if e.id = id then f e else e)).find?
        (fun e => e.id = j)).map (fun e => e.attrs)
      = (l.find? (fun e => e.id = j)).map (fun e => e.attrs) := by
  induction l with
  | nil => rfl
  | cons a t ih =>
    rw [List.map_cons]
    by_cases ha : a.id = id
    · rw [if_pos ha]
      by_cases haj : a.id = j
      · rw [List.find?_cons_of_pos _ (by simp [hid, haj]),
          List.find?_cons_of_pos _ (by simp [haj])]
        simp [hattrs]
      · rw [List.find?_cons_of_neg _ (by simp [hid, haj]),
          List.find?_cons_of_neg _ (by simp [haj])]
        exact ih
    · rw [if_neg ha]
      by_cases haj : a.id = j
      · rw [List.find?_cons_of_pos _ (by simp [haj]),
          List.find?_cons_of_pos _ (by simp [haj])]
      · rw [List.find?_cons_of_neg _ (by simp [haj]),
          List.find?_cons_of_neg _ (by simp [haj])]
        exact ih

theorem attrsAt_applyEffect (st : St) (id j : Nat) (dh : Elem → Value → Elem) (v : Value)
    (hid : ∀ e, (dh e v).id = e.id) (hattrs : ∀ e, (dh e v).attrs = e.attrs) :
    attrsAt (applyEffect dh v id st) j = attrsAt st j := by
  unfold attrsAt applyEffect getElem updateDoc
  exact attrsAt_update st.doc.elems id j (fun e => dh e v) hid hattrs

/-- An update pass that succeeds with plain snippets traces exactly the
present directives of the element, in table order; it never changes any
element's attributes nor the listener list. -/
theorem updateDirs_plain (prog : Prog) (fuel : Nat) :
    ∀ (L : List (String × (Elem → Value → Elem))),
      (∀ p ∈ L, ∀ (e : Elem) (v : Value), ((p.2 e v).attrs = e.attrs ∧ (p.2 e v).id = e.id)) →
      ∀ (st : St) (id : Nat) (elm : Elem) (st1 : St),
        getElem st.doc id = some elm →
        (∀ p code, p ∈ L → getAttr elm p.1 = some code → isPlainCode (prog code) = true) →
        updateDirs prog fuel L id st = (.ok (), st1) →
        st1.trace = st.trace ++
          (L.filter (fun p => (getAttr elm p.1).isSome)).map (fun p => (id, p.1)) ∧
        (∀ j, attrsAt st1 j = attrsAt st j) ∧
        st1.listeners = st.listeners := by
  intro L
  induction L with
  | nil =>
    intro _ st id elm st1 _ _ hok
    have h2 : ((Except.ok () : Except Err Unit), st) = (Except.ok (), st1) := hok
    cases h2
    exact ⟨by simp, fun j => rfl, rfl⟩
  | cons p rest ih =>
    rcases p with ⟨dn, dh⟩
    intro hL st id elm st1 helm hplain hok
    have hrest : ∀ p ∈ rest, ∀ (e : Elem) (v : Value),
        ((p.2 e v).attrs = e.attrs ∧ (p.2 e v).id = e.id) :=
      fun p hp => hL p (List.mem_cons_of_mem _ hp)
    rcases hattr : getAttr elm dn with _ | code
    · have hstep : updateDirs prog fuel ((dn, dh) :: rest) id st
          = updateDirs prog fuel rest id st := by
        show updateDirsWith (fun code self st => evaluateString prog fuel code self none st)
            ((dn, dh) :: rest) id st = _
        simp only [updateDirsWith, helm, hattr]
        rfl
      rw [hstep] at hok
      have h := ih hrest st id elm st1 helm
        (fun p code hp hc => hplain p code (List.mem_cons_of_mem _ hp) hc) hok
      refine ⟨?_, h.2.1, h.2.2⟩
      rw [h.1, List.filter_cons, if_neg (by simp [hattr])]
    · have hplainHead := hplain (dn, dh) code (List.mem_cons_self _ _) hattr
      rcases hev : evaluateString prog fuel code id none (noteDir st id dn) with ⟨rE, stE⟩
      have hE := evaluateString_plain prog fuel code id none (noteDir st id dn) hplainHead
      rw [hev] at hE
      have hEdoc : stE.doc = st.doc := hE.1
      have hEtrace : stE.trace = st.trace ++ [(id, dn)] := hE.2.1
      have hElist : stE.listeners = st.listeners := hE.2.2
      cases rE with
      | error eE =>
        have hstep : updateDirs prog fuel ((dn, dh) :: rest) id st = (.error eE, stE) := by
          show updateDirsWith (fun code self st => evaluateString prog fuel code self none st)
              ((dn, dh) :: rest) id st = _
          simp only [updateDirsWith, helm, hattr, hev]
        rw [hstep] at hok
        exact absurd hok (by simp)
      | ok v =>
        have hstep : updateDirs prog fuel ((dn, dh) :: rest) id st
            = updateDirs prog fuel rest id (applyEffect dh v id stE) := by
          show updateDirsWith (fun code self st => evaluateString prog fuel code self none st)
              ((dn, dh) :: rest) id st = _
          simp only [updateDirsWith, helm, hattr, hev]
          rfl
        rw [hstep] at hok
        have hidp : ∀ e, (dh e v).id = e.id :=
          fun e => (hL (dn, dh) (List.mem_cons_self _ _) e v).2
        have hattrsp : ∀ e, (dh e v).attrs = e.attrs :=
          fun e => (hL (dn, dh) (List.mem_cons_self _ _) e v).1
        have helmB : getElem (applyEffect dh v id stE).doc id = some (dh elm v) := by
          show getElem (updateDoc stE.doc id (fun e => dh e v)) id = _
          rw [getElem_updateDoc _ _ _ hidp, hEdoc, helm]
          rfl
        have hplainB : ∀ p code2, p ∈ rest → getAttr (dh elm v) p.1 = some code2 →
            isPlainCode (prog code2) = true := by
          intro p code2 hp hc
          rw [getAttr_congr (hattrsp elm)] at hc
          exact hplain p code2 (List.mem_cons_of_mem _ hp) hc
        have h := ih hrest (applyEffect dh v id stE) id (dh elm v) st1 helmB hplainB hok
        refine ⟨?_, ?_, ?_⟩
        · rw [h.1]
          have htr : (applyEffect dh v id stE).trace = st.trace ++ [(id, dn)] := hEtrace
          rw [htr]
          have hfil : rest.filter (fun p => (getAttr (dh elm v) p.1).isSome)
              = rest.filter (fun p => (getAttr elm p.1).isSome) := by
            apply List.filter_congr
            intro q _
            rw [getAttr_congr (hattrsp elm)]
          rw [hfil, List.filter_cons, if_pos (by simp [hattr])]
          simp [List.append_assoc]
        · intro j
          rw [h.2.1 j, attrsAt_applyEffect stE id j dh v hidp hattrsp]
          show (getElem stE.doc j).map (fun e => e.attrs) = attrsAt st j
          rw [hEdoc]
          rfl
        · rw [h.2.2]
          exact hElist

theorem filter_map_fst (l : List (String × (Elem → Value → Elem))) (q : String → Bool)
    (f : String → Nat × String) :
    ((l.map (fun p => p.1)).filter q).map f
      = (l.filter (fun p => q p.1)).map (fun p => f p.1) := by
  induction l with
  | nil => rfl
  | cons a t ih =>
    simp only [List.map_cons, List.filter_cons]
    by_cases hq : q a.1 = true <;> simp [hq, ih]

theorem elementTrace_eq_AD (id : Nat) (elm : Elem) :
    (AVAILABLE_DIRECTIVES.filter (fun p => (getAttr elm p.1).isSome)).map (fun p => (id, p.1))
      = (DIRECTIVE_ORDER.filter (fun dn => (getAttr elm dn).isSome)).map (fun dn => (id, dn)) := by
  unfold DIRECTIVE_ORDER
  rw [filter_map_fst]

theorem regEvents_state (elm : Elem) :
    ∀ (names : List String) (st : St),
      (regEvents elm names st).2.doc = st.doc ∧ (regEvents elm names st).2.trace = st.trace := by
  intro names
  induction names with
  | nil => intro st; exact ⟨rfl, rfl⟩
  | cons k rest ih =>
    intro st
    rcases h : getAttr elm ("w-on:" ++ k) with _ | c
    · simp only [regEvents, h]
      exact ih st
    · by_cases hk : k = "submit"
      · subst hk
        rcases hf : elm.form with _ | fid
        · simp only [regEvents, h, if_pos rfl, hf]
          exact ⟨rfl, rfl⟩
        · simp only [regEvents, h, if_pos rfl, hf]
          exact ih _
      · simp only [regEvents, h, if_neg hk]
        exact ih _

theorem registerEventHandler_state (id : Nat) (st : St) :
    (registerEventHandler id st).2.doc = st.doc ∧
    (registerEventHandler id st).2.trace = st.trace := by
  unfold registerEventHandler
  rcases hg : getElem st.doc id with _ | elm0
  · exact ⟨rfl, rfl⟩
  · exact regEvents_state elm0 AVAILABLE_EVENT_NAMES st

theorem getElem_of_nodup (l : List Elem) (hnd : (l.map (fun e => e.id)).Nodup) (e : Elem)
    (he : e ∈ l) : l.find? (fun x => x.id = e.id) = some e := by
  induction l with
  | nil => simp at he
  | cons a t ih =>
    rw [List.map_cons, List.nodup_cons] at hnd
    rcases List.mem_cons.mp he with rfl | hmem
    · rw [List.find?_cons_of_pos _ (by simp)]
    · by_cases ha : a.id = e.id
      · exact absurd (ha ▸ List.mem_map_of_mem (fun x => x.id) hmem) hnd.1
      · rw [List.find?_cons_of_neg _ (by simp [ha])]
        exact ih hnd.2 hmem

/-- The scan loop of `register`, over elements whose snippets are plain,
traces each element's present directives in table order, elements in the
given (document) order. -/
theorem registerLoop_trace (prog : Prog) (fuel : Nat) :
    ∀ (es : List Elem) (st stOut : St),
      (∀ e ∈ es, attrsAt st e.id = some e.attrs) →
      (∀ e ∈ es, ∀ p code, p ∈ AVAILABLE_DIRECTIVES → getAttr e p.1 = some code →
        isPlainCode (prog code) = true) →
      registerLoop prog fuel (es.map (fun e => e.id)) st = (.ok (), stOut) →
      stOut.trace = st.trace ++ (es.map elementTrace).flatten ∧
      (∀ j, attrsAt stOut j = attrsAt st j) := by
  intro es
  induction es with
  | nil =>
    intro st stOut _ _ hok
    have h2 : ((Except.ok () : Except Err Unit), st) = (.ok (), stOut) := hok
    cases h2
    exact ⟨by simp, fun j => rfl⟩
  | cons e es ih =>
    intro st stOut hmem hplain hok
    rw [List.map_cons] at hok
    rcases hreh : registerEventHandler e.id st with ⟨r1, stR⟩
    have hS := registerEventHandler_state e.id st
    rw [hreh] at hS
    have hRdoc : stR.doc = st.doc := hS.1
    have hRtrace : stR.trace = st.trace := hS.2
    cases r1 with
    | error e1 =>
      have hstep : registerLoop prog fuel (e.id :: es.map (fun x => x.id)) st
          = (.error e1, stR) := by
        simp only [registerLoop, hreh]
      rw [hstep] at hok
      exact absurd hok (by simp)
    | ok u1 =>
      rcases hue : updateElement prog fuel e.id stR with ⟨r2, stU⟩
      cases r2 with
      | error e2 =>
        have hstep : registerLoop prog fuel (e.id :: es.map (fun x => x.id)) st
            = (.error e2, stU) := by
          simp only [registerLoop, hreh, hue]
        rw [hstep] at hok
        exact absurd hok (by simp)
      | ok u2 =>
        have hstep : registerLoop prog fuel (e.id :: es.map (fun x => x.id)) st
            = registerLoop prog fuel (es.map (fun x => x.id)) stU := by
          simp only [registerLoop, hreh, hue]
        rw [hstep] at hok
        have hmemHead := hmem e (List.mem_cons_self _ _)
        rcases hg : getElem st.doc e.id with _ | elm0
        · rw [attrsAt, hg] at hmemHead
          exact absurd hmemHead (by simp)
        · have hattrs0 : elm0.attrs = e.attrs := by
            rw [attrsAt, hg] at hmemHead
            simpa using hmemHead
          have helmR : getElem stR.doc e.id = some elm0 := by
            rw [hRdoc]
            exact hg
          have hplain0 : ∀ p code, p ∈ AVAILABLE_DIRECTIVES → getAttr elm0 p.1 = some code →
              isPlainCode (prog code) = true := by
            intro p code hp hc
            rw [getAttr_congr hattrs0] at hc
            exact hplain e (List.mem_cons_self _ _) p code hp hc
          have hU := updateDirs_plain prog fuel AVAILABLE_DIRECTIVES AD_preserves
            stR e.id elm0 stU helmR hplain0 hue
          have hUattrs : ∀ j, attrsAt stU j = attrsAt st j := by
            intro j
            rw [hU.2.1 j, attrsAt, hRdoc]
            rfl
          have hmem2 : ∀ e2, e2 ∈ es → attrsAt stU e2.id = some e2.attrs := by
            intro e2 he2
            rw [hUattrs e2.id]
            exact hmem e2 (List.mem_cons_of_mem _ he2)
          have hplain2 : ∀ e2, e2 ∈ es → ∀ p code, p ∈ AVAILABLE_DIRECTIVES →
              getAttr e2 p.1 = some code → isPlainCode (prog code) = true :=
            fun e2 he2 => hplain e2 (List.mem_cons_of_mem _ he2)
          have h := ih stU stOut hmem2 hplain2 hok
          refine ⟨?_, fun j => (h.2 j).trans (hUattrs j)⟩
          rw [h.1, hU.1, hRtrace]
          have hfil : AVAILABLE_DIRECTIVES.filter (fun p => (getAttr elm0 p.1).isSome)
              = AVAILABLE_DIRECTIVES.filter (fun p => (getAttr e p.1).isSome) := by
            apply List.filter_congr
            intro q _
            rw [getAttr_congr hattrs0]
          rw [hfil, elementTrace_eq_AD]
          show _ = st.trace ++ (elementTrace e :: es.map elementTrace).flatten
          rw [List.flatten_cons, List.append_assoc]
          rfl

/-- C7: within one `updateElement` call, the directive kinds present on
the element are evaluated and applied in the fixed table declaration
order — show, value, update, text, html — and within one `register` call
the scanned elements are processed in document traversal order: the
directive trace of a successful run is exactly the document-ordered
concatenation of each scanned element's present directives in table
order.  The snippets of the involved elements are restricted to plain
code (no `wUpdate` re-entry), so that nested update passes do not
interleave extra entries into the trace. -/
theorem directives_fixed_order_scan_order (prog : Prog) (fuel : Nat)
    (id : Nat) (st : St) (elm : Elem) (st1 : St)
    (helm : getElem st.doc id = some elm)
    (hplain : ∀ p code, p ∈ AVAILABLE_DIRECTIVES → getAttr elm p.1 = some code →
      isPlainCode (prog code) = true)
    (hok : updateElement prog fuel id st = (.ok (), st1))
    (stR stR1 : St)
    (hnodup : (stR.doc.elems.map (fun e => e.id)).Nodup)
    (hplainAll : ∀ e, e ∈ stR.doc.elems → ∀ p code, p ∈ AVAILABLE_DIRECTIVES →
      getAttr e p.1 = some code → isPlainCode (prog code) = true)
    (hokR : register prog fuel stR = (.ok (), stR1)) :
    st1.trace = st.trace ++
      (DIRECTIVE_ORDER.filter (fun dn => (getAttr elm dn).isSome)).map (fun dn => (id, dn)) ∧
    stR1.trace = stR.trace ++ ((stR.doc.elems.filter eligible).map elementTrace).flatten := by
  constructor
  · have h := updateDirs_plain prog fuel AVAILABLE_DIRECTIVES AD_preserves st id elm st1
      helm hplain hok
    rw [h.1, elementTrace_eq_AD]
  · unfold register at hokR
    have hes : scanElements stR.doc = (stR.doc.elems.filter eligible).map (fun e => e.id) := rfl
    rw [hes] at hokR
    have hmem : ∀ e ∈ stR.doc.elems.filter eligible, attrsAt stR e.id = some e.attrs := by
      intro e he
      have he2 : e ∈ stR.doc.elems := List.mem_of_mem_filter he
      unfold attrsAt getElem
      rw [getElem_of_nodup stR.doc.elems hnodup e he2]
      rfl
    have hplain2 : ∀ e ∈ stR.doc.elems.filter eligible, ∀ p code, p ∈ AVAILABLE_DIRECTIVES →
        getAttr e p.1 = some code → isPlainCode (prog code) = true :=
      fun e he => hplainAll e (List.mem_of_mem_filter he)
    exact (registerLoop_trace prog fuel (stR.doc.elems.filter eligible) stR stR1
      hmem hplain2 hokR).1

theorem pureElem_plain : ∀ (p : String × (Elem → Value → Elem)) (code : String),
    p ∈ AVAILABLE_DIRECTIVES → getAttr pureElem p.1 = some code →
    isPlainCode (progPure code) = true := by
  intro p code hp hc
  simp only [AVAILABLE_DIRECTIVES, List.mem_cons, List.not_mem_nil, or_false] at hp
  rcases hp with h | h | h | h | h <;> subst h
  · have hn : getAttr pureElem "w-show" = none := by decide
    rw [hn] at hc
    exact absurd hc (by simp)
  · have hn : getAttr pureElem "w-value" = some "v2" := by decide
    rw [hn] at hc
    injection hc with h2
    subst h2
    decide
  · have hn : getAttr pureElem "w-update" = none := by decide
    rw [hn] at hc
    exact absurd hc (by simp)
  · have hn : getAttr pureElem "w-text" = some "t2" := by decide
    rw [hn] at hc
    injection hc with h2
    subst h2
    decide
  · have hn : getAttr pureElem "w-html" = none := by decide
    rw [hn] at hc
    exact absurd hc (by simp)

theorem directives_fixed_order_scan_order_witness :
    (updateElement progPure 3 0 stPure).2.trace = [(0, "w-value"), (0, "w-text")] ∧
    (register progPure 3 stPure).2.trace = [(0, "w-value"), (0, "w-text")] := by
  have hplainAll : ∀ e, e ∈ stPure.doc.elems → ∀ (p : String × (Elem → Value → Elem))
      (code : String), p ∈ AVAILABLE_DIRECTIVES → getAttr e p.1 = some code →
      isPlainCode (progPure code) = true := by
    intro e he
    have he2 : e = pureElem := by simpa [stPure] using he
    subst he2
    exact pureElem_plain
  have h := directives_fixed_order_scan_order progPure 3 0 stPure pureElem
    (updateElement progPure 3 0 stPure).2 (by decide) pureElem_plain rfl
    stPure (register progPure 3 stPure).2 (by decide) hplainAll rfl
  constructor
  · rw [h.1]
    decide
  · rw [h.2]
    decide

end Waft
